import Mathlib

/-!
Verification of the function-level script-optimization pipeline
(`src/script_opt/ScriptOpt.cc`): configuration resolution, the
"when"-taint fixpoint of `analyze_scripts`, the mode dispatch
(native substitution / native generation / reduction loop), and the
per-function pipeline `optimize_func`.

Function bodies, profiles, the reducer, the inliner and the compiled
registry are external collaborators of this translation unit; they are
embedded as abstract data and oracle parameters, while every piece of
control flow and state mutation performed by `ScriptOpt.cc` itself is
translated directly.
-/

namespace ScriptOpt

/-- Function identities (`const ScriptFunc*` in the source). -/
abbrev FuncId := Nat

/-- The slice of `ProfileFunc` read by `ScriptOpt.cc`: the suspension-call
("when") callees, the direct script-call callees, and the two counts used
as activation predicates in `optimize_func`. -/
structure ProfileFunc where
  whenCalls : List FuncId
  scriptCalls : List FuncId
  numWhenStmts : Nat
  numLambdas : Nat
deriving DecidableEq, Repr

/-- First-match association-list lookup, modelling `unordered_map::find`. -/
def alookup {α β : Type} [DecidableEq α] (k : α) : List (α × β) → Option β
  | [] => none
  | p :: ps => if p.1 = k then some p.2 else alookup k ps

/-- A profile map, as built by the `func_profs[f.Func()] = f.Profile()` loop
(registration order; a later entry for the same key overwrites). -/
abbrev ProfMap := List (FuncId × ProfileFunc)

/-- `func_profs[wf]`: last binding wins, a missing function yields the
empty profile (the source would dereference an empty slot there; inputs
keep every mentioned function registered). -/
def profOf (fs : ProfMap) (x : FuncId) : ProfileFunc :=
  (alookup x fs.reverse).getD ⟨[], [], 0, 0⟩

/-- `func_profs[wf]->ScriptCalls()`. -/
def callsOf (fs : ProfMap) (x : FuncId) : List FuncId :=
  (profOf fs x).scriptCalls

/-- The initial `when_funcs`: every registered function whose profile has a
non-empty suspension-call set (`WhenCalls().size() > 0`). -/
def whenStmtSet (fs : ProfMap) : Finset FuncId :=
  fs.foldl (fun s p => if p.2.whenCalls.isEmpty then s else insert p.1 s) ∅

/-- The initial `when_funcs_to_do`: every suspension-call callee of some
registered function. -/
def rootsList (fs : ProfMap) : List FuncId :=
  fs.foldl (fun l p => if p.2.whenCalls.isEmpty then l else l ++ p.2.whenCalls) []

/-- All function ids mentioned anywhere in the profile map. -/
def univIds (fs : ProfMap) : Finset FuncId :=
  fs.foldl (fun s p => insert p.1 (s ∪ p.2.whenCalls.toFinset ∪ p.2.scriptCalls.toFinset)) ∅

/-- Body of the inner `for ( auto& wf : when_funcs_to_do )` loop: insert
`wf` into `when_funcs`, then enqueue into `new_to_do` every direct callee
of `wf` not already in `when_funcs`. -/
def stepOne (fs : ProfMap) (st : Finset FuncId × List FuncId) (wf : FuncId) :
    Finset FuncId × List FuncId :=
  let wfs := insert wf st.1
  (wfs, st.2 ++ (callsOf fs wf).filter (fun c => ! decide (c ∈ wfs)))

/-- One pass of the `while ( when_funcs_to_do.size() > 0 )` loop: process
every queued function, accumulating `new_to_do`. -/
def runPass (fs : ProfMap) (wfs : Finset FuncId) (todo : List FuncId) :
    Finset FuncId × List FuncId :=
  todo.foldl (stepOne fs) (wfs, [])

/-- The outer worklist loop, fuelled; each unit of fuel is one pass,
and the loop stops as soon as the worklist is empty. -/
def propLoop (fs : ProfMap) : Nat → Finset FuncId × List FuncId → Finset FuncId × List FuncId
  | 0, st => st
  | n + 1, st => if st.2.isEmpty then st else propLoop fs n (runPass fs st.1 st.2)

/-- Fuel sufficient for the loop to drain (proved below). -/
def fuelBound (fs : ProfMap) : Nat :=
  2 * (univIds fs).card + 2

/-- The loop's starting state. -/
def seedState (fs : ProfMap) : Finset FuncId × List FuncId :=
  (whenStmtSet fs, rootsList fs)

/-- The final `when_funcs` set computed by `analyze_scripts`. -/
def whenTaint (fs : ProfMap) : Finset FuncId :=
  (propLoop fs (fuelBound fs) (seedState fs)).1

/-- The closure the worklist actually computes, declaratively: every
suspension-call callee is in; and a direct callee of a member is in,
provided that callee does not itself contain suspension calls (the source
skips enqueuing anything already in `when_funcs`, which from the start
holds every function with a non-empty suspension-call set). -/
inductive InClose (fs : ProfMap) (R : List FuncId) (W : Finset FuncId) : FuncId → Prop
  | base (x : FuncId) : x ∈ R → InClose fs R W x
  | step (x c : FuncId) : InClose fs R W x → c ∈ callsOf fs x → c ∉ W → InClose fs R W c

/-- The spec's taint set for claim C1 as written there: the closure of the
suspension-call roots (the functions containing suspension calls) under
direct-call edges, with nothing else in it. -/
inductive SpecTaint (fs : ProfMap) : FuncId → Prop
  | root (x : FuncId) (pf : ProfileFunc) : (x, pf) ∈ fs → pf.whenCalls ≠ [] → SpecTaint fs x
  | step (x c : FuncId) : SpecTaint fs x → c ∈ callsOf fs x → SpecTaint fs c

/-- Every direct callee of `x` is either already tainted or still queued. -/
def Covered (fs : ProfMap) (wfs : Finset FuncId) (T : List FuncId) (x : FuncId) : Prop :=
  ∀ c ∈ callsOf fs x, c ∈ wfs ∨ c ∈ T

/-- Loop invariant of the taint worklist, over the permanent set `wfs`
and the queued ids `T` (pending part of the current pass plus the
accumulated `new_to_do`). -/
def Inv (fs : ProfMap) (wfs : Finset FuncId) (T : List FuncId) : Prop :=
  whenStmtSet fs ⊆ wfs ∧
  (∀ x ∈ wfs, x ∈ whenStmtSet fs ∨ InClose fs (rootsList fs) (whenStmtSet fs) x) ∧
  (∀ x ∈ T, InClose fs (rootsList fs) (whenStmtSet fs) x) ∧
  (∀ x ∈ rootsList fs, x ∈ wfs ∨ x ∈ T) ∧
  (∀ x ∈ rootsList fs, x ∈ T ∨ Covered fs wfs T x) ∧
  (∀ x ∈ wfs, x ∉ whenStmtSet fs → Covered fs wfs T x)

/-- The fields of `AnalyOpt` read or written by `ScriptOpt.cc`. -/
structure AnalyOpt where
  activate : Bool
  only_func : Option String
  usage_issues : Nat
  inliner : Bool
  dump_xform : Bool
  report_recursive : Bool
deriving DecidableEq, Repr

/-- The process environment as read during one-time initialization:
presence flags for the three boolean variables, the `atoi` value of
ZEEK_USAGE_ISSUES when set, and ZEEK_ONLY when set. -/
structure EnvConfig where
  dumpXform : Bool
  inlineSet : Bool
  xform : Bool
  usage : Option Int
  only : Option String
deriving DecidableEq, Repr

/-- The one-time configuration resolution of `analyze_scripts` (the
`did_init` block): each `check_env_opt` turns its flag on when the
variable is present; a present ZEEK_USAGE_ISSUES sets `usage_issues` to
2 when `atoi > 1` and otherwise to 1; ZEEK_ONLY fills `only_func` only
when unset; finally a set `only_func` or positive `usage_issues` forces
`activate`. -/
def resolve_config (env : EnvConfig) (o : AnalyOpt) : AnalyOpt :=
  let o1 : AnalyOpt :=
    { o with dump_xform := o.dump_xform || env.dumpXform,
             inliner := o.inliner || env.inlineSet,
             activate := o.activate || env.xform }
  let o2 : AnalyOpt :=
    match env.usage with
    | some u => { o1 with usage_issues := if u > 1 then 2 else 1 }
    | none => o1
  let o3 : AnalyOpt :=
    if o2.only_func.isNone then { o2 with only_func := env.only } else o2
  if o3.only_func.isSome || o3.usage_issues > 0 then { o3 with activate := true } else o3

/-- `only_func && *only_func != f->Name()`. -/
def onlyMismatch (o : Option String) (nm : String) : Bool :=
  match o with
  | some s => s != nm
  | none => false

/-- The `Reducer` object as seen from `optimize_func`: its `Reduce`
rewrite and the counts it reports afterwards. Externals (§4.4): abstract
but deterministic. -/
structure Reducer where
  reduce : Nat → Nat
  numTemps : Nat
  numNewLocals : Nat

/-- The ambient externals `optimize_func` reads: the global error counter
at entry and as observed again right after `Reduce`, the normal-form
predicate with its `non_reduced_perp` side channel, the scope length, and
the profile traversal applied to the new body. -/
structure OptimizeCtx where
  errors0 : Nat
  errorsAfterReduce : Nat
  isReduced : Nat → Bool
  nonReducedPerp : Option String
  scopeLen : Nat
  reprofile : Nat → ProfileFunc

/-- One function's mutable record as touched by `optimize_func`: name,
current body (abstract id), profile, frame size. -/
structure FuncState where
  name : String
  body : Nat
  pf : ProfileFunc
  frameSize : Nat
deriving DecidableEq, Repr

/-- Observable actions of `optimize_func`, in program order: the
diagnostic prints, the body replacement, the re-profiling, the
reaching-definitions decoration, and the frame-size store. -/
inductive OptEvent where
  | printOriginal (b : Nat)
  | skipWhenLambda
  | inconsistency (fname : String) (perp : Option String)
  | printTransformed (b : Nat)
  | replacedBody (oldBody newBody : Nat)
  | reprofiled
  | decorated
  | setFrameSize (n : Nat)
deriving DecidableEq, Repr

/-- Direct translation of `optimize_func` (ScriptOpt.cc lines 29-98):
early return on a recorded global error, on inactive analysis, on an
`only_func` mismatch, and on a profile with suspension statements or
lambdas; then `Reduce`, an early return if the error counter became
positive, the non-aborting `IsReduced` consistency check, body
replacement, re-profiling, decoration, and the monotone frame-size
update. -/
def optimize_func (ctx : OptimizeCtx) (rc : Reducer) (opts : AnalyOpt)
    (f : FuncState) : FuncState × List OptEvent :=
  if ctx.errors0 > 0 then (f, [])
  else if !opts.activate then (f, [])
  else if onlyMismatch opts.only_func f.name then (f, [])
  else
    let ev0 : List OptEvent :=
      if opts.only_func.isSome then [OptEvent.printOriginal f.body] else []
    if f.pf.numWhenStmts > 0 ∨ f.pf.numLambdas > 0 then
      (f, ev0 ++ if opts.only_func.isSome then [OptEvent.skipWhenLambda] else [])
    else
      let newBody := rc.reduce f.body
      if ctx.errorsAfterReduce > 0 then (f, ev0)
      else
        let ev1 : List OptEvent :=
          if ! ctx.isReduced newBody then [OptEvent.inconsistency f.name ctx.nonReducedPerp]
          else []
        let ev2 : List OptEvent :=
          if opts.only_func.isSome || opts.dump_xform then [OptEvent.printTransformed newBody]
          else []
        let nfs := ctx.scopeLen + rc.numTemps + rc.numNewLocals
        let f' : FuncState :=
          { name := f.name, body := newBody, pf := ctx.reprofile newBody,
            frameSize := if nfs > f.frameSize then nfs else f.frameSize }
        (f', ev0 ++ ev1 ++ ev2 ++
          [OptEvent.replacedBody f.body newBody, OptEvent.reprofiled, OptEvent.decorated] ++
          (if nfs > f.frameSize then [OptEvent.setFrameSize nfs] else []))

/-- A value bound to a global identifier: an interpreted function or a
compiled native implementation. -/
inductive Val where
  | interp (fid : FuncId)
  | native (impl : Nat)
deriving DecidableEq, Repr

/-- `ID::SetVal` on all globals named `n` (a real global table has one). -/
def setVal (g : List (String × Val)) (n : String) (v : Val) : List (String × Val) :=
  g.map (fun p => if p.1 = n then (n, v) else p)

/-- One registered function (`FuncInfo`): identity, name, current body. -/
structure FuncRec where
  fid : FuncId
  name : String
  body : Nat
deriving DecidableEq, Repr

/-- The native-substitution loop (ScriptOpt.cc lines 235-246): for every
registered function, look its name up in `compiled_funcs`; a miss is
skipped silently; on a hit, rebind the global of that name (when the
global lookup succeeds) to the native implementation. -/
def substitute_compiled (compiled : List (String × Nat)) (funcs : List FuncRec)
    (globals : List (String × Val)) : List (String × Val) :=
  funcs.foldl
    (fun g f =>
      match alookup f.name compiled with
      | none => g
      | some impl =>
        match alookup f.name g with
        | none => g
        | some _ => setVal g f.name (Val.native impl))
    globals

/-- Input state of one `analyze_scripts` call: environment, current
options, the `did_init` latch, whether `CPP_init_hook` is installed, the
compiled-implementation registry, the global identifier table, the
registered functions, and the external profiler and inliner oracles. -/
structure AnalyzeInput where
  envc : EnvConfig
  opts0 : AnalyOpt
  didInit : Bool
  hook : Bool
  compiled : List (String × Nat)
  globals : List (String × Val)
  funcs : List FuncRec
  prof : FuncId → ProfileFunc
  wasInlined : FuncId → Bool

/-- Which terminal path `analyze_scripts` took. -/
inductive Mode where
  | earlyExit
  | inlineOnly
  | substitution
  | generation
  | reductionLoop
deriving DecidableEq, Repr

/-- Result of one `analyze_scripts` call. -/
structure AnalyzeResult where
  opts : AnalyOpt
  mode : Mode
  whenFuncs : Finset FuncId
  globals : List (String × Val)
  generated : Bool
  reduced : List FuncId
  funcs : List FuncRec

/-- The options in force after the `did_init` block. -/
def resolvedOpts (inp : AnalyzeInput) : AnalyOpt :=
  if inp.didInit then inp.opts0 else resolve_config inp.envc inp.opts0

/-- The profile map `func_profs` built by the profiling loop. -/
def funcProfs (inp : AnalyzeInput) : ProfMap :=
  inp.funcs.map (fun f => (f.fid, inp.prof f.fid))

/-- Direct translation of `analyze_scripts` (ScriptOpt.cc lines 123-271):
one-time configuration resolution; early return when neither activation
nor inlining is requested; profiling; the "when" taint fixpoint; then
exactly one terminal mode: return after inlining when not activated,
the native-substitution loop and return when `CPP_init_hook` is
installed, and otherwise `CPPCompile`/`CompileTo` followed by an
unconditional `return` — the per-function reduction loop after it is
unreachable, so `reduced` is empty on every path. -/
def analyze_scripts (inp : AnalyzeInput) : AnalyzeResult :=
  let opts := resolvedOpts inp
  if !opts.activate && !opts.inliner then
    ⟨opts, Mode.earlyExit, ∅, inp.globals, false, [], inp.funcs⟩
  else
    let wt := whenTaint (funcProfs inp)
    if !opts.activate then
      ⟨opts, Mode.inlineOnly, wt, inp.globals, false, [], inp.funcs⟩
    else if inp.hook then
      ⟨opts, Mode.substitution, wt,
        substitute_compiled inp.compiled inp.funcs inp.globals, false, [], inp.funcs⟩
    else
      ⟨opts, Mode.generation, wt, inp.globals, true, [], inp.funcs⟩

/-- The functions the dead reduction loop (lines 255-270) would visit:
neither inlined away (consulted only when the inliner ran) nor in the
taint set. -/
def eligibleFuncs (inp : AnalyzeInput) : List FuncId :=
  let opts := resolvedOpts inp
  let wt := whenTaint (funcProfs inp)
  (inp.funcs.filter
    (fun f => !(opts.inliner && inp.wasInlined f.fid) && ! decide (f.fid ∈ wt))).map
    (fun f => f.fid)

/-- Concrete profile map for the spec's scenario: `A` (id 0) directly
calls `B` (id 1); `B` contains a suspension call to `C` (id 2); `C`
calls nothing and makes no suspension calls. -/
def exABC : ProfMap :=
  [(0, ⟨[], [1], 0, 0⟩), (1, ⟨[2], [], 1, 0⟩), (2, ⟨[], [], 0, 0⟩)]

/-- Concrete input for the mode-dispatch claims: configuration already
resolved with activation on, no inliner, no native hook, one registered
function `f` (id 0) with an unremarkable profile. -/
def exGen : AnalyzeInput where
  envc := ⟨false, false, false, none, none⟩
  opts0 := ⟨true, none, 0, false, false, false⟩
  didInit := true
  hook := false
  compiled := []
  globals := [("f", Val.interp 0)]
  funcs := [⟨0, "f", 10⟩]
  prof := fun _ => ⟨[], [], 0, 0⟩
  wasInlined := fun _ => false

/-- Concrete input for the substitution-mode witness: hook installed,
activation on, registry maps "foo" to a native implementation, functions
"foo" and "bar" registered with interpreted global bindings. -/
def exSub : AnalyzeInput where
  envc := ⟨false, false, false, none, none⟩
  opts0 := ⟨true, none, 0, false, false, false⟩
  didInit := true
  hook := true
  compiled := [("foo", 7)]
  globals := [("foo", Val.interp 0), ("bar", Val.interp 1)]
  funcs := [⟨0, "foo", 10⟩, ⟨1, "bar", 11⟩]
  prof := fun _ => ⟨[], [], 0, 0⟩
  wasInlined := fun _ => false

/-- Concrete `optimize_func` externals for witnesses: no errors, a
reducer that bumps the body id and reports one temp and one new local, a
normal-form check that fails on everything with a recorded perp, scope
length 4. -/
def exCtx : OptimizeCtx where
  errors0 := 0
  errorsAfterReduce := 0
  isReduced := fun _ => false
  nonReducedPerp := some "bad subtree"
  scopeLen := 4
  reprofile := fun _ => ⟨[], [], 0, 0⟩

def exRc : Reducer where
  reduce := fun b => b + 100
  numTemps := 1
  numNewLocals := 1

def exOpts : AnalyOpt :=
  ⟨true, none, 0, false, false, false⟩

def exFunc : FuncState :=
  ⟨"f", 10, ⟨[], [], 0, 0⟩, 3⟩

/-- Externals with a positive error counter already at entry. -/
def exCtxErr : OptimizeCtx where
  errors0 := 3
  errorsAfterReduce := 3
  isReduced := fun _ => true
  nonReducedPerp := none
  scopeLen := 4
  reprofile := fun _ => ⟨[], [], 0, 0⟩

/-- Externals where the error counter turns positive during `Reduce`. -/
def exCtxMid : OptimizeCtx where
  errors0 := 0
  errorsAfterReduce := 2
  isReduced := fun _ => true
  nonReducedPerp := none
  scopeLen := 4
  reprofile := fun _ => ⟨[], [], 0, 0⟩

/-! ### Association-list lemmas -/

lemma alookup_eq_some_mem {α β : Type} [DecidableEq α] {k : α} {b : β} :
    ∀ {l : List (α × β)}, alookup k l = some b → (k, b) ∈ l := by
  intro l
  induction l with
  | nil => intro h; simp [alookup] at h
  | cons p ps ih =>
    intro h
    by_cases hp : p.1 = k
    · simp only [alookup, if_pos hp] at h
      cases h
      subst hp
      exact List.mem_cons_self _ _
    · simp only [alookup, if_neg hp] at h
      exact List.mem_cons_of_mem p (ih h)

lemma alookup_eq_none_iff {α β : Type} [DecidableEq α] {k : α} :
    ∀ {l : List (α × β)}, alookup k l = none ↔ k ∉ l.map Prod.fst := by
  intro l
  induction l with
  | nil => simp [alookup]
  | cons p ps ih =>
    by_cases hp : p.1 = k
    · simp [alookup, hp]
    · simp only [alookup, if_neg hp, List.map_cons, List.mem_cons, ih]
      constructor
      · intro h hm
        rcases hm with hm | hm
        · exact hp hm.symm
        · exact h hm
      · intro h hm
        exact h (Or.inr hm)

lemma alookup_eq_some_iff_of_nodup {α β : Type} [DecidableEq α] {k : α} {b : β} :
    ∀ {l : List (α × β)}, (l.map Prod.fst).Nodup →
      (alookup k l = some b ↔ (k, b) ∈ l) := by
  intro l
  induction l with
  | nil => intro _; simp [alookup]
  | cons p ps ih =>
    intro hnd
    simp only [List.map_cons, List.nodup_cons] at hnd
    by_cases hp : p.1 = k
    · simp only [alookup, if_pos hp, Option.some_inj, List.mem_cons]
      constructor
      · intro h
        left
        cases p
        simp_all
      · intro h
        rcases h with h | h
        · cases p; simp_all
        · exfalso
          apply hnd.1
          rw [hp]
          exact List.mem_map_of_mem Prod.fst h
    · simp only [alookup, if_neg hp, List.mem_cons, ih hnd.2]
      constructor
      · intro h; exact Or.inr h
      · intro h
        rcases h with h | h
        · exfalso; apply hp; rw [← h]
        · exact h

/-! ### Membership in the seed structures -/

lemma mem_whenStmtSet_aux (l : ProfMap) :
    ∀ (s : Finset FuncId) (x : FuncId),
      x ∈ l.foldl (fun s p => if p.2.whenCalls.isEmpty then s else insert p.1 s) s ↔
        x ∈ s ∨ ∃ p ∈ l, p.1 = x ∧ p.2.whenCalls ≠ [] := by
  induction l with
  | nil => simp
  | cons p ps ih =>
    intro s x
    simp only [List.foldl_cons]
    rw [ih]
    by_cases hp : p.2.whenCalls.isEmpty
    · have hpe : p.2.whenCalls = [] := List.isEmpty_iff.mp hp
      simp [hp, hpe]
    · have hpe : p.2.whenCalls ≠ [] := by
        intro h
        exact hp (List.isEmpty_iff.mpr h)
      simp only [if_neg hp, Finset.mem_insert, List.mem_cons]
      constructor
      · rintro (⟨h | h⟩ | ⟨q, hq, h1, h2⟩)
        · exact Or.inr ⟨p, Or.inl rfl, h.symm, hpe⟩
        · exact Or.inl h
        · exact Or.inr ⟨q, Or.inr hq, h1, h2⟩
      · rintro (h | ⟨q, hq | hq, h1, h2⟩)
        · exact Or.inl (Or.inr h)
        · subst hq; exact Or.inl (Or.inl h1.symm)
        · exact Or.inr ⟨q, hq, h1, h2⟩

lemma mem_whenStmtSet {fs : ProfMap} {x : FuncId} :
    x ∈ whenStmtSet fs ↔ ∃ p ∈ fs, p.1 = x ∧ p.2.whenCalls ≠ [] := by
  unfold whenStmtSet
  rw [mem_whenStmtSet_aux]
  simp

lemma mem_rootsList_aux (l : ProfMap) :
    ∀ (acc : List FuncId) (x : FuncId),
      x ∈ l.foldl (fun a p => if p.2.whenCalls.isEmpty then a else a ++ p.2.whenCalls) acc ↔
        x ∈ acc ∨ ∃ p ∈ l, x ∈ p.2.whenCalls := by
  induction l with
  | nil => simp
  | cons p ps ih =>
    intro acc x
    simp only [List.foldl_cons]
    rw [ih]
    by_cases hp : p.2.whenCalls.isEmpty
    · have hpe : p.2.whenCalls = [] := List.isEmpty_iff.mp hp
      simp [hp, hpe]
    · simp only [if_neg hp, List.mem_append, List.mem_cons]
      constructor
      · rintro (⟨h | h⟩ | ⟨q, hq, h2⟩)
        · exact Or.inl h
        · exact Or.inr ⟨p, Or.inl rfl, h⟩
        · exact Or.inr ⟨q, Or.inr hq, h2⟩
      · rintro (h | ⟨q, hq | hq, h2⟩)
        · exact Or.inl (Or.inl h)
        · subst hq; exact Or.inl (Or.inr h2)
        · exact Or.inr ⟨q, hq, h2⟩

lemma mem_rootsList {fs : ProfMap} {x : FuncId} :
    x ∈ rootsList fs ↔ ∃ p ∈ fs, x ∈ p.2.whenCalls := by
  unfold rootsList
  rw [mem_rootsList_aux]
  simp

lemma mem_univIds_aux (l : ProfMap) :
    ∀ (s : Finset FuncId) (x : FuncId),
      x ∈ l.foldl
          (fun s p => insert p.1 (s ∪ p.2.whenCalls.toFinset ∪ p.2.scriptCalls.toFinset)) s ↔
        x ∈ s ∨ ∃ p ∈ l, x = p.1 ∨ x ∈ p.2.whenCalls ∨ x ∈ p.2.scriptCalls := by
  induction l with
  | nil => simp
  | cons p ps ih =>
    intro s x
    simp only [List.foldl_cons]
    rw [ih]
    simp only [Finset.mem_insert, Finset.mem_union, List.mem_toFinset, List.mem_cons]
    constructor
    · rintro (⟨h | ⟨⟨h | h⟩ | h⟩⟩ | ⟨q, hq, h2⟩)
      · exact Or.inr ⟨p, Or.inl rfl, Or.inl h⟩
      · exact Or.inl h
      · exact Or.inr ⟨p, Or.inl rfl, Or.inr (Or.inl h)⟩
      · exact Or.inr ⟨p, Or.inl rfl, Or.inr (Or.inr h)⟩
      · exact Or.inr ⟨q, Or.inr hq, h2⟩
    · rintro (h | ⟨q, hq | hq, h2⟩)
      · exact Or.inl (Or.inr (Or.inl (Or.inl h)))
      · subst hq
        rcases h2 with h2 | h2 | h2
        · exact Or.inl (Or.inl h2)
        · exact Or.inl (Or.inr (Or.inl (Or.inr h2)))
        · exact Or.inl (Or.inr (Or.inr h2))
      · exact Or.inr ⟨q, hq, h2⟩

lemma mem_univIds {fs : ProfMap} {x : FuncId} :
    x ∈ univIds fs ↔ ∃ p ∈ fs, x = p.1 ∨ x ∈ p.2.whenCalls ∨ x ∈ p.2.scriptCalls := by
  unfold univIds
  rw [mem_univIds_aux]
  simp

lemma whenStmtSet_subset_univ {fs : ProfMap} : whenStmtSet fs ⊆ univIds fs := by
  intro x hx
  rcases mem_whenStmtSet.mp hx with ⟨p, hp, h1, _⟩
  exact mem_univIds.mpr ⟨p, hp, Or.inl h1.symm⟩

lemma rootsList_subset_univ {fs : ProfMap} {x : FuncId} (hx : x ∈ rootsList fs) :
    x ∈ univIds fs := by
  rcases mem_rootsList.mp hx with ⟨p, hp, h2⟩
  exact mem_univIds.mpr ⟨p, hp, Or.inr (Or.inl h2)⟩

lemma callsOf_subset_univ {fs : ProfMap} {x c : FuncId} (hc : c ∈ callsOf fs x) :
    c ∈ univIds fs := by
  unfold callsOf profOf at hc
  cases hal : alookup x fs.reverse with
  | none => rw [hal] at hc; simp at hc
  | some pf =>
    rw [hal] at hc
    simp only [Option.getD_some] at hc
    have hmem : (x, pf) ∈ fs := List.mem_reverse.mp (alookup_eq_some_mem hal)
    exact mem_univIds.mpr ⟨(x, pf), hmem, Or.inr (Or.inr hc)⟩

/-! ### Basic worklist-loop lemmas -/

lemma propLoop_stall {fs : ProfMap} {st : Finset FuncId × List FuncId} (h : st.2 = []) :
    ∀ n, propLoop fs n st = st := by
  intro n
  cases n with
  | zero => rfl
  | succ m => simp [propLoop, h]

lemma propLoop_split {fs : ProfMap} :
    ∀ (m n : Nat) (st : Finset FuncId × List FuncId),
      propLoop fs (m + n) st = propLoop fs n (propLoop fs m st) := by
  intro m
  induction m with
  | zero =>
    intro n st
    rw [Nat.zero_add]
    rfl
  | succ k ih =>
    intro n st
    by_cases h : st.2 = []
    · simp [propLoop_stall h]
    · have h1 : k + 1 + n = (k + n) + 1 := by omega
      rw [h1]
      have h2 : st.2.isEmpty = false := by
        cases hs : st.2 with
        | nil => exact absurd hs h
        | cons a l => rfl
      show (if st.2.isEmpty then st else propLoop fs (k + n) (runPass fs st.1 st.2)) =
        propLoop fs n (if st.2.isEmpty then st else propLoop fs k (runPass fs st.1 st.2))
      rw [h2]
      simp only [Bool.false_eq_true, if_false]
      exact ih n (runPass fs st.1 st.2)

lemma foldl_stepOne_fst (fs : ProfMap) :
    ∀ (todo : List FuncId) (wfs : Finset FuncId) (acc : List FuncId),
      (todo.foldl (stepOne fs) (wfs, acc)).1 = wfs ∪ todo.toFinset := by
  intro todo
  induction todo with
  | nil => intro wfs acc; simp
  | cons wf rest ih =>
    intro wfs acc
    simp only [List.foldl_cons, stepOne]
    rw [ih]
    ext y
    simp only [Finset.mem_union, Finset.mem_insert, List.mem_toFinset, List.toFinset_cons,
      List.mem_cons]
    tauto

lemma foldl_stepOne_snd_mem (fs : ProfMap) :
    ∀ (todo : List FuncId) (wfs : Finset FuncId) (acc : List FuncId) (c : FuncId),
      c ∈ (todo.foldl (stepOne fs) (wfs, acc)).2 →
        c ∈ acc ∨ ∃ x ∈ todo, c ∈ callsOf fs x := by
  intro todo
  induction todo with
  | nil =>
    intro wfs acc c hc
    exact Or.inl hc
  | cons wf rest ih =>
    intro wfs acc c hc
    simp only [List.foldl_cons, stepOne] at hc
    rcases ih _ _ _ hc with h | ⟨x, hx, h2⟩
    · rcases List.mem_append.mp h with h | h
      · exact Or.inl h
      · exact Or.inr ⟨wf, List.mem_cons_self _ _, (List.mem_filter.mp h).1⟩
    · exact Or.inr ⟨x, List.mem_cons_of_mem _ hx, h2⟩

lemma foldl_stepOne_nogrow (fs : ProfMap) :
    ∀ (todo : List FuncId) (wfs : Finset FuncId) (acc : List FuncId),
      (todo.foldl (stepOne fs) (wfs, acc)).1 = wfs →
        ∀ c ∈ (todo.foldl (stepOne fs) (wfs, acc)).2, c ∈ acc ∨ c ∉ wfs := by
  intro todo
  induction todo with
  | nil =>
    intro wfs acc _ c hc
    exact Or.inl hc
  | cons wf rest ih =>
    intro wfs acc hfst c hc
    simp only [List.foldl_cons, stepOne] at hfst hc
    have hfst' := hfst
    have heq : insert wf wfs = wfs := by
      rw [foldl_stepOne_fst] at hfst
      apply Finset.Subset.antisymm
      · intro a ha
        rw [← hfst]
        exact Finset.mem_union_left _ ha
      · exact Finset.subset_insert wf wfs
    rw [heq] at hfst' hc
    rcases ih _ _ hfst' c hc with h | h
    · rcases List.mem_append.mp h with h | h
      · exact Or.inl h
      · right
        have hd := (List.mem_filter.mp h).2
        simpa using hd
    · exact Or.inr h

/-! ### Invariant preservation -/

lemma covered_transport {fs : ProfMap} {wfs : Finset FuncId} {wf : FuncId}
    {rest acc new : List FuncId} {x : FuncId}
    (h : Covered fs wfs (wf :: (rest ++ acc)) x) :
    Covered fs (insert wf wfs) (rest ++ (acc ++ new)) x := by
  intro c hc
  rcases h c hc with h1 | h1
  · exact Or.inl (Finset.mem_insert_of_mem h1)
  · rcases List.mem_cons.mp h1 with h1 | h1
    · exact Or.inl (h1 ▸ Finset.mem_insert_self wf wfs)
    · rcases List.mem_append.mp h1 with h1 | h1
      · exact Or.inr (List.mem_append_left _ h1)
      · exact Or.inr (List.mem_append_right _ (List.mem_append_left _ h1))

lemma covered_processed {fs : ProfMap} {wfs : Finset FuncId} {wf : FuncId}
    {rest acc : List FuncId} :
    Covered fs (insert wf wfs)
      (rest ++ (acc ++ (callsOf fs wf).filter (fun c => ! decide (c ∈ insert wf wfs)))) wf := by
  intro c hc
  by_cases hcw : c ∈ insert wf wfs
  · exact Or.inl hcw
  · refine Or.inr (List.mem_append_right _ (List.mem_append_right _ ?_))
    refine List.mem_filter.mpr ⟨hc, ?_⟩
    simpa using hcw

lemma stepOne_inv {fs : ProfMap} {wfs : Finset FuncId} {wf : FuncId} {rest acc : List FuncId}
    (h : Inv fs wfs (wf :: (rest ++ acc))) :
    Inv fs (insert wf wfs)
      (rest ++ (acc ++ (callsOf fs wf).filter (fun c => ! decide (c ∈ insert wf wfs)))) := by
  obtain ⟨hA, hB, hC, hG, hF, hE⟩ := h
  have hwfIC : InClose fs (rootsList fs) (whenStmtSet fs) wf :=
    hC wf (List.mem_cons_self _ _)
  refine ⟨?_, ?_, ?_, ?_, ?_, ?_⟩
  · exact hA.trans (Finset.subset_insert wf wfs)
  · intro x hx
    rcases Finset.mem_insert.mp hx with hx | hx
    · exact Or.inr (hx ▸ hwfIC)
    · exact hB x hx
  · intro x hx
    rcases List.mem_append.mp hx with hx | hx
    · exact hC x (List.mem_cons_of_mem _ (List.mem_append_left _ hx))
    · rcases List.mem_append.mp hx with hx | hx
      · exact hC x (List.mem_cons_of_mem _ (List.mem_append_right _ hx))
      · have hcall := (List.mem_filter.mp hx).1
        have hnw : x ∉ insert wf wfs := by
          have := (List.mem_filter.mp hx).2
          simpa using this
        have hnW : x ∉ whenStmtSet fs := fun hw =>
          hnw (Finset.mem_insert_of_mem (hA hw))
        exact InClose.step wf x hwfIC hcall hnW
  · intro x hx
    rcases hG x hx with h1 | h1
    · exact Or.inl (Finset.mem_insert_of_mem h1)
    · rcases List.mem_cons.mp h1 with h1 | h1
      · exact Or.inl (h1 ▸ Finset.mem_insert_self wf wfs)
      · rcases List.mem_append.mp h1 with h1 | h1
        · exact Or.inr (List.mem_append_left _ h1)
        · exact Or.inr (List.mem_append_right _ (List.mem_append_left _ h1))
  · intro x hx
    rcases hF x hx with h1 | h1
    · rcases List.mem_cons.mp h1 with h1 | h1
      · exact Or.inr (h1 ▸ covered_processed)
      · rcases List.mem_append.mp h1 with h1 | h1
        · exact Or.inl (List.mem_append_left _ h1)
        · exact Or.inl (List.mem_append_right _ (List.mem_append_left _ h1))
    · exact Or.inr (covered_transport h1)
  · intro x hx hxW
    rcases Finset.mem_insert.mp hx with hx | hx
    · exact hx ▸ covered_processed
    · exact covered_transport (hE x hx hxW)

lemma foldl_stepOne_inv (fs : ProfMap) :
    ∀ (todo : List FuncId) (wfs : Finset FuncId) (acc : List FuncId),
      Inv fs wfs (todo ++ acc) →
      Inv fs (todo.foldl (stepOne fs) (wfs, acc)).1 (todo.foldl (stepOne fs) (wfs, acc)).2 := by
  intro todo
  induction todo with
  | nil =>
    intro wfs acc h
    simpa using h
  | cons wf rest ih =>
    intro wfs acc h
    have h' : Inv fs wfs (wf :: (rest ++ acc)) := h
    simp only [List.foldl_cons, stepOne]
    exact ih _ _ (stepOne_inv h')

lemma runPass_inv {fs : ProfMap} {wfs : Finset FuncId} {todo : List FuncId}
    (h : Inv fs wfs todo) :
    Inv fs (runPass fs wfs todo).1 (runPass fs wfs todo).2 := by
  unfold runPass
  apply foldl_stepOne_inv
  simpa using h

lemma propLoop_inv (fs : ProfMap) :
    ∀ (n : Nat) (st : Finset FuncId × List FuncId), Inv fs st.1 st.2 →
      Inv fs (propLoop fs n st).1 (propLoop fs n st).2 := by
  intro n
  induction n with
  | zero => intro st h; exact h
  | succ k ih =>
    intro st h
    show Inv fs (if st.2.isEmpty then st else propLoop fs k (runPass fs st.1 st.2)).1
      (if st.2.isEmpty then st else propLoop fs k (runPass fs st.1 st.2)).2
    by_cases he : st.2.isEmpty
    · rw [if_pos he]; exact h
    · rw [if_neg he]
      exact ih _ (runPass_inv h)

lemma inv_seed (fs : ProfMap) : Inv fs (whenStmtSet fs) (rootsList fs) := by
  refine ⟨Finset.Subset.refl _, ?_, ?_, ?_, ?_, ?_⟩
  · intro x hx; exact Or.inl hx
  · intro x hx; exact InClose.base x hx
  · intro x hx; exact Or.inr hx
  · intro x hx; exact Or.inl hx
  · intro x hx hxW; exact absurd hx hxW

lemma inClose_mem_W_root {fs : ProfMap} {x : FuncId}
    (h : InClose fs (rootsList fs) (whenStmtSet fs) x) (hw : x ∈ whenStmtSet fs) :
    x ∈ rootsList fs := by
  cases h with
  | base _ h1 => exact h1
  | step _ _ _ _ hnW => exact absurd hw hnW

lemma inv_final_mem {fs : ProfMap} {wfs : Finset FuncId} (h : Inv fs wfs []) :
    ∀ x, InClose fs (rootsList fs) (whenStmtSet fs) x → x ∈ wfs := by
  obtain ⟨hA, hB, hC, hG, hF, hE⟩ := h
  intro x hx
  induction hx with
  | base y hy =>
    rcases hG y hy with h1 | h1
    · exact h1
    · simp at h1
  | step y c hy hcall hcW ihy =>
    by_cases hyW : y ∈ whenStmtSet fs
    · have hyR := inClose_mem_W_root hy hyW
      rcases hF y hyR with h1 | h1
      · simp at h1
      · rcases h1 c hcall with h2 | h2
        · exact h2
        · simp at h2
    · rcases hE y ihy hyW c hcall with h2 | h2
      · exact h2
      · simp at h2

/-! ### Termination of the worklist loop -/

lemma runPass_fst (fs : ProfMap) (wfs : Finset FuncId) (todo : List FuncId) :
    (runPass fs wfs todo).1 = wfs ∪ todo.toFinset :=
  foldl_stepOne_fst fs todo wfs []

lemma runPass_snd_univ {fs : ProfMap} {wfs : Finset FuncId} {todo : List FuncId} :
    ∀ c ∈ (runPass fs wfs todo).2, c ∈ univIds fs := by
  intro c hc
  rcases foldl_stepOne_snd_mem fs todo wfs [] c hc with h | ⟨x, _, h2⟩
  · simp at h
  · exact callsOf_subset_univ h2

lemma progress (fs : ProfMap) :
    ∀ (k : Nat) (wfs : Finset FuncId) (T : List FuncId),
      wfs ⊆ univIds fs → (∀ x ∈ T, x ∈ univIds fs) →
      (univIds fs \ wfs).card ≤ k →
      (propLoop fs (2 * k + 2) (wfs, T)).2 = [] := by
  intro k
  induction k using Nat.strong_induction_on with
  | _ k ih =>
    intro wfs T hwu hTu hcard
    by_cases hTnil : T = []
    · rw [propLoop_stall hTnil]
      exact hTnil
    · have hTe : T.isEmpty = false := by
        cases T with
        | nil => exact absurd rfl hTnil
        | cons a l => rfl
      have hunf : propLoop fs (2 * k + 2) (wfs, T) =
          propLoop fs (2 * k + 1) (runPass fs wfs T) := by
        show (if T.isEmpty then (wfs, T) else propLoop fs (2 * k + 1) (runPass fs wfs T)) =
          propLoop fs (2 * k + 1) (runPass fs wfs T)
        rw [hTe]
        simp
      rw [hunf]
      have hfst1 : (runPass fs wfs T).1 = wfs ∪ T.toFinset := runPass_fst fs wfs T
      have hw1u : (runPass fs wfs T).1 ⊆ univIds fs := by
        rw [hfst1]
        intro a ha
        rcases Finset.mem_union.mp ha with ha | ha
        · exact hwu ha
        · exact hTu a (List.mem_toFinset.mp ha)
      by_cases hgrow : ∀ x ∈ T, x ∈ wfs
      · -- no growth in this pass; everything queued next is fresh
        have hfst1' : (runPass fs wfs T).1 = wfs := by
          rw [hfst1]
          exact Finset.union_eq_left.mpr (fun x hx => hgrow x (List.mem_toFinset.mp hx))
        have hfresh : ∀ c ∈ (runPass fs wfs T).2, c ∉ wfs := by
          intro c hc
          have := foldl_stepOne_nogrow fs T wfs [] hfst1' c hc
          rcases this with h | h
          · simp at h
          · exact h
        by_cases hT1nil : (runPass fs wfs T).2 = []
        · have : propLoop fs (2 * k + 1) (runPass fs wfs T) = runPass fs wfs T :=
            propLoop_stall hT1nil _
          rw [this]
          exact hT1nil
        · have hT1e : (runPass fs wfs T).2.isEmpty = false := by
            cases hc : (runPass fs wfs T).2 with
            | nil => exact absurd hc hT1nil
            | cons a l => rfl
          have hunf2 : propLoop fs (2 * k + 1) (runPass fs wfs T) =
              propLoop fs (2 * k)
                (runPass fs (runPass fs wfs T).1 (runPass fs wfs T).2) := by
            show (if (runPass fs wfs T).2.isEmpty then (runPass fs wfs T)
                else propLoop fs (2 * k)
                  (runPass fs (runPass fs wfs T).1 (runPass fs wfs T).2)) =
              propLoop fs (2 * k)
                (runPass fs (runPass fs wfs T).1 (runPass fs wfs T).2)
            rw [hT1e]
            simp
          rw [hunf2]
          obtain ⟨c, hcmem⟩ := List.exists_mem_of_ne_nil _ hT1nil
          have hcu : ∀ x ∈ (runPass fs wfs T).2, x ∈ univIds fs := runPass_snd_univ
          have hfst2 : (runPass fs (runPass fs wfs T).1 (runPass fs wfs T).2).1 =
              (runPass fs wfs T).1 ∪ (runPass fs wfs T).2.toFinset :=
            runPass_fst fs _ _
          have hw2u : (runPass fs (runPass fs wfs T).1 (runPass fs wfs T).2).1 ⊆ univIds fs := by
            rw [hfst2]
            intro a ha
            rcases Finset.mem_union.mp ha with ha | ha
            · exact hw1u ha
            · exact hcu a (List.mem_toFinset.mp ha)
          have hstrict : (univIds fs \
              (runPass fs (runPass fs wfs T).1 (runPass fs wfs T).2).1).card <
              (univIds fs \ wfs).card := by
            apply Finset.card_lt_card
            rw [Finset.ssubset_iff_of_subset]
            · refine ⟨c, Finset.mem_sdiff.mpr ⟨hcu c hcmem, hfresh c hcmem⟩, ?_⟩
              intro hcon
              have := (Finset.mem_sdiff.mp hcon).2
              apply this
              rw [hfst2]
              exact Finset.mem_union_right _ (List.mem_toFinset.mpr hcmem)
            · apply Finset.sdiff_subset_sdiff (Finset.Subset.refl _)
              rw [hfst2, hfst1']
              exact Finset.subset_union_left
          set m := (univIds fs \
            (runPass fs (runPass fs wfs T).1 (runPass fs wfs T).2).1).card with hm
          have hmk : m < k := lt_of_lt_of_le hstrict hcard
          have hind := ih m hmk
            (runPass fs (runPass fs wfs T).1 (runPass fs wfs T).2).1
            (runPass fs (runPass fs wfs T).1 (runPass fs wfs T).2).2
            hw2u runPass_snd_univ (le_of_eq rfl)
          have hsplit : 2 * k = (2 * m + 2) + (2 * k - (2 * m + 2)) := by omega
          rw [hsplit, propLoop_split]
          rw [propLoop_stall hind]
          exact hind
      · -- some queued function is new: the permanent set grows this pass
        push_neg at hgrow
        obtain ⟨x, hxT, hxw⟩ := hgrow
        have hstrict : (univIds fs \ (runPass fs wfs T).1).card <
            (univIds fs \ wfs).card := by
          apply Finset.card_lt_card
          rw [Finset.ssubset_iff_of_subset]
          · refine ⟨x, Finset.mem_sdiff.mpr ⟨hTu x hxT, hxw⟩, ?_⟩
            intro hcon
            have := (Finset.mem_sdiff.mp hcon).2
            apply this
            rw [hfst1]
            exact Finset.mem_union_right _ (List.mem_toFinset.mpr hxT)
          · apply Finset.sdiff_subset_sdiff (Finset.Subset.refl _)
            rw [hfst1]
            exact Finset.subset_union_left
        set m := (univIds fs \ (runPass fs wfs T).1).card with hm
        have hmk : m < k := lt_of_lt_of_le hstrict hcard
        have hind := ih m hmk (runPass fs wfs T).1 (runPass fs wfs T).2
          hw1u runPass_snd_univ (le_of_eq rfl)
        have hsplit : 2 * k + 1 = (2 * m + 2) + (2 * k + 1 - (2 * m + 2)) := by omega
        rw [hsplit, propLoop_split]
        rw [propLoop_stall hind]
        exact hind

/-! ### The taint set characterized -/

lemma whenTaint_drained (fs : ProfMap) :
    (propLoop fs (fuelBound fs) (seedState fs)).2 = [] := by
  unfold fuelBound seedState
  apply progress
  · exact whenStmtSet_subset_univ
  · intro x hx
    exact rootsList_subset_univ hx
  · exact Finset.card_le_card Finset.sdiff_subset

lemma taint_mem_iff (fs : ProfMap) (x : FuncId) :
    x ∈ whenTaint fs ↔
      x ∈ whenStmtSet fs ∨ InClose fs (rootsList fs) (whenStmtSet fs) x := by
  have hinv : Inv fs (propLoop fs (fuelBound fs) (seedState fs)).1
      (propLoop fs (fuelBound fs) (seedState fs)).2 :=
    propLoop_inv fs _ _ (inv_seed fs)
  rw [whenTaint_drained fs] at hinv
  constructor
  · intro hx
    exact hinv.2.1 x hx
  · rintro (hx | hx)
    · exact hinv.1 hx
    · exact inv_final_mem hinv x hx

lemma whenTaint_stable (fs : ProfMap) (j : Nat) :
    propLoop fs (fuelBound fs + j) (seedState fs) =
      propLoop fs (fuelBound fs) (seedState fs) := by
  rw [propLoop_split]
  exact propLoop_stall (whenTaint_drained fs) j

/-! ### Order independence -/

lemma alookup_perm {α β : Type} [DecidableEq α] {l1 l2 : List (α × β)}
    (hp : l1.Perm l2) (hnd : (l1.map Prod.fst).Nodup) (k : α) :
    alookup k l1 = alookup k l2 := by
  have hnd2 : (l2.map Prod.fst).Nodup := ((hp.map Prod.fst).nodup_iff).mp hnd
  cases h1 : alookup k l1 with
  | some b =>
    have hmem := alookup_eq_some_mem h1
    have hmem2 : (k, b) ∈ l2 := hp.mem_iff.mp hmem
    exact ((alookup_eq_some_iff_of_nodup hnd2).mpr hmem2).symm
  | none =>
    rw [alookup_eq_none_iff] at h1
    symm
    rw [alookup_eq_none_iff]
    intro hc
    exact h1 ((hp.map Prod.fst).mem_iff.mpr hc)

lemma profOf_perm {fs1 fs2 : ProfMap} (hp : fs1.Perm fs2)
    (hnd : (fs1.map Prod.fst).Nodup) (x : FuncId) : profOf fs1 x = profOf fs2 x := by
  unfold profOf
  have hrev : fs1.reverse.Perm fs2.reverse :=
    (List.reverse_perm fs1).trans (hp.trans (List.reverse_perm fs2).symm)
  have hndr : (fs1.reverse.map Prod.fst).Nodup := by
    rw [List.map_reverse]
    exact List.nodup_reverse.mpr hnd
  rw [alookup_perm hrev hndr x]

lemma callsOf_perm {fs1 fs2 : ProfMap} (hp : fs1.Perm fs2)
    (hnd : (fs1.map Prod.fst).Nodup) (x : FuncId) : callsOf fs1 x = callsOf fs2 x := by
  unfold callsOf
  rw [profOf_perm hp hnd x]

lemma whenStmtSet_perm {fs1 fs2 : ProfMap} (hp : fs1.Perm fs2) :
    whenStmtSet fs1 = whenStmtSet fs2 := by
  ext x
  rw [mem_whenStmtSet, mem_whenStmtSet]
  constructor
  · rintro ⟨p, hpm, h1, h2⟩
    exact ⟨p, hp.mem_iff.mp hpm, h1, h2⟩
  · rintro ⟨p, hpm, h1, h2⟩
    exact ⟨p, hp.mem_iff.mpr hpm, h1, h2⟩

lemma inClose_perm {fs1 fs2 : ProfMap} (hp : fs1.Perm fs2)
    (hnd : (fs1.map Prod.fst).Nodup) :
    ∀ x, InClose fs1 (rootsList fs1) (whenStmtSet fs1) x →
      InClose fs2 (rootsList fs2) (whenStmtSet fs2) x := by
  intro x h
  induction h with
  | base y hy =>
    apply InClose.base
    rw [mem_rootsList] at hy ⊢
    obtain ⟨p, hpm, h2⟩ := hy
    exact ⟨p, hp.mem_iff.mp hpm, h2⟩
  | step y c _ hcall hcW ihy =>
    apply InClose.step y c ihy
    · rw [← callsOf_perm hp hnd]
      exact hcall
    · rw [← whenStmtSet_perm hp]
      exact hcW

lemma whenTaint_perm {fs1 fs2 : ProfMap} (hp : fs1.Perm fs2)
    (hnd : (fs1.map Prod.fst).Nodup) : whenTaint fs1 = whenTaint fs2 := by
  have hnd2 : (fs2.map Prod.fst).Nodup := ((hp.map Prod.fst).nodup_iff).mp hnd
  ext x
  rw [taint_mem_iff, taint_mem_iff]
  constructor
  · rintro (h | h)
    · exact Or.inl (by rw [← whenStmtSet_perm hp]; exact h)
    · exact Or.inr (inClose_perm hp hnd x h)
  · rintro (h | h)
    · exact Or.inl (by rw [whenStmtSet_perm hp]; exact h)
    · exact Or.inr (inClose_perm hp.symm hnd2 x h)

/-! ### Native-substitution lemmas -/

lemma alookup_setVal_ne {g : List (String × Val)} {m n : String} {v : Val} (h : m ≠ n) :
    alookup m (setVal g n v) = alookup m g := by
  induction g with
  | nil => rfl
  | cons p ps ih =>
    by_cases hp : p.1 = n
    · have hne : ¬ (n = m) := fun hc => h hc.symm
      have hne2 : ¬ (p.1 = m) := by rw [hp]; exact hne
      simp only [setVal, List.map_cons, if_pos hp, alookup, hne, if_neg hne2,
        if_false]
      exact ih
    · simp only [setVal, List.map_cons, if_neg hp, alookup]
      by_cases hm : p.1 = m
      · rw [if_pos hm, if_pos hm]
      · rw [if_neg hm, if_neg hm]
        exact ih

lemma alookup_setVal_self {g : List (String × Val)} {n : String} {v : Val}
    (h : (alookup n g).isSome) : alookup n (setVal g n v) = some v := by
  induction g with
  | nil => simp [alookup] at h
  | cons p ps ih =>
    by_cases hp : p.1 = n
    · simp [setVal, alookup, hp]
    · have h' : (alookup n ps).isSome := by
        simpa [alookup, hp] using h
      simp only [setVal, List.map_cons, if_neg hp, alookup, if_neg hp]
      simpa [setVal] using ih h'

lemma substitute_nil (compiled : List (String × Nat)) (g : List (String × Val)) :
    substitute_compiled compiled [] g = g := rfl

lemma substitute_cons (compiled : List (String × Nat)) (f : FuncRec)
    (fl : List FuncRec) (g : List (String × Val)) :
    substitute_compiled compiled (f :: fl) g =
      substitute_compiled compiled fl
        (match alookup f.name compiled with
          | none => g
          | some impl =>
            match alookup f.name g with
            | none => g
            | some _ => setVal g f.name (Val.native impl)) := rfl

lemma substitute_notfound {compiled : List (String × Nat)} {n : String}
    (hn : alookup n compiled = none) :
    ∀ (funcs : List FuncRec) (g : List (String × Val)),
      alookup n (substitute_compiled compiled funcs g) = alookup n g := by
  intro funcs
  induction funcs with
  | nil => intro g; rfl
  | cons f fl ih =>
    intro g
    rw [substitute_cons]
    cases hc1 : alookup f.name compiled with
    | none =>
      simp only [hc1]
      exact ih g
    | some impl =>
      have hfn : n ≠ f.name := by
        intro hc
        rw [hc, hc1] at hn
        cases hn
      simp only [hc1]
      cases hc2 : alookup f.name g with
      | none =>
        simp only [hc2]
        exact ih g
      | some v =>
        simp only [hc2]
        rw [ih (setVal g f.name (Val.native impl))]
        exact alookup_setVal_ne hfn

lemma substitute_preserve_native {compiled : List (String × Nat)} {n : String} {impl : Nat}
    (hc : alookup n compiled = some impl) :
    ∀ (funcs : List FuncRec) (g : List (String × Val)),
      alookup n g = some (Val.native impl) →
      alookup n (substitute_compiled compiled funcs g) = some (Val.native impl) := by
  intro funcs
  induction funcs with
  | nil => intro g hg; exact hg
  | cons f fl ih =>
    intro g hg
    rw [substitute_cons]
    cases hc1 : alookup f.name compiled with
    | none =>
      simp only [hc1]
      exact ih g hg
    | some impl2 =>
      simp only [hc1]
      cases hc2 : alookup f.name g with
      | none =>
        simp only [hc2]
        exact ih g hg
      | some v =>
        simp only [hc2]
        by_cases hfn : f.name = n
        · subst hfn
          rw [hc1] at hc
          cases hc
          apply ih
          exact alookup_setVal_self (by rw [hg]; rfl)
        · apply ih
          rw [alookup_setVal_ne (fun hx => hfn hx.symm)]
          exact hg

lemma substitute_found {compiled : List (String × Nat)} {n : String} {impl : Nat}
    (hc : alookup n compiled = some impl) :
    ∀ (funcs : List FuncRec) (g : List (String × Val)),
      (alookup n g).isSome → (∃ f ∈ funcs, f.name = n) →
      alookup n (substitute_compiled compiled funcs g) = some (Val.native impl) := by
  intro funcs
  induction funcs with
  | nil =>
    intro g _ hex
    obtain ⟨f, hf, _⟩ := hex
    cases hf
  | cons f fl ih =>
    intro g hg hex
    rw [substitute_cons]
    by_cases hfn : f.name = n
    · rw [hfn]
      simp only [hc]
      cases hc2 : alookup n g with
      | none => rw [hc2] at hg; cases hg
      | some v =>
        simp only [hc2]
        by_cases hfl : ∃ f0 ∈ fl, f0.name = n
        · exact ih (setVal g n (Val.native impl))
            (by rw [alookup_setVal_self hg]; rfl) hfl
        · exact substitute_preserve_native hc fl _ (alookup_setVal_self hg)
    · have hfl : ∃ f0 ∈ fl, f0.name = n := by
        obtain ⟨f0, hf0, hname⟩ := hex
        rcases List.mem_cons.mp hf0 with h1 | h1
        · exact absurd (h1 ▸ hname) hfn
        · exact ⟨f0, h1, hname⟩
      cases hc1 : alookup f.name compiled with
      | none =>
        simp only [hc1]
        exact ih g hg hfl
      | some impl2 =>
        simp only [hc1]
        cases hc2 : alookup f.name g with
        | none =>
          simp only [hc2]
          exact ih g hg hfl
        | some v =>
          simp only [hc2]
          apply ih _ _ hfl
          rw [alookup_setVal_ne (fun hx => hfn hx.symm)]
          exact hg

/-! ### Bounding the spec's closure -/

lemma specTaint_subset {fs : ProfMap} (S : Finset FuncId)
    (hroot : ∀ p ∈ fs, p.2.whenCalls ≠ [] → p.1 ∈ S)
    (hstep : ∀ x ∈ S, ∀ c ∈ callsOf fs x, c ∈ S) :
    ∀ x, SpecTaint fs x → x ∈ S := by
  intro x h
  induction h with
  | root y pf hmem hne => exact hroot (y, pf) hmem hne
  | step y c _ hcall ihy => exact hstep y ihy c hcall

/-! ### Mode-dispatch helper lemmas -/

lemma analyze_generation {inp : AnalyzeInput}
    (hact : (resolvedOpts inp).activate = true) (hhook : inp.hook = false) :
    analyze_scripts inp =
      ⟨resolvedOpts inp, Mode.generation, whenTaint (funcProfs inp), inp.globals, true, [],
        inp.funcs⟩ := by
  simp [analyze_scripts, hact, hhook]

lemma analyze_substitution {inp : AnalyzeInput}
    (hact : (resolvedOpts inp).activate = true) (hhook : inp.hook = true) :
    analyze_scripts inp =
      ⟨resolvedOpts inp, Mode.substitution, whenTaint (funcProfs inp),
        substitute_compiled inp.compiled inp.funcs inp.globals, false, [], inp.funcs⟩ := by
  simp [analyze_scripts, hact, hhook]

/-! ## Claims -/

/-- C1, counterexample: for `A` (id 0) directly calling `B` (id 1) and `B`
containing a suspension call to `C` (id 2), the code's taint set is
`{B, C}`: `C`, the suspension callee, IS tainted, although it is not in
the claimed closure of the suspension-call roots under direct-call edges
(that closure is `{B}` and excludes `C`). -/
theorem C1_counterexample :
    whenTaint exABC = {1, 2} ∧ (2 : FuncId) ∈ whenTaint exABC ∧ ¬ SpecTaint exABC 2 := by
  refine ⟨by decide, by decide, ?_⟩
  intro h
  have h2 := @specTaint_subset exABC {1} (by decide) (by decide) 2 h
  simp at h2

/-- C1, amended: the taint set computed by the fixpoint in
`analyze_scripts` consists of exactly (a) every function whose profile has
a non-empty suspension-call set, together with (b) the closure of the
suspension-call callees under direct-call edges, where the expansion does
not continue through callees that themselves contain suspension calls; in
particular the suspension callees themselves are tainted. -/
theorem C1_taint_characterization :
    ∀ (fs : ProfMap) (x : FuncId),
      x ∈ whenTaint fs ↔
        x ∈ whenStmtSet fs ∨ InClose fs (rootsList fs) (whenStmtSet fs) x :=
  taint_mem_iff

/-- C8: the taint worklist loop terminates on every finite profile map,
cyclic call graphs included: within the stated fuel bound the worklist
drains to empty, and giving the loop any additional fuel leaves the
result unchanged (the permanent set only grows, and a function already in
the permanent set is never re-enqueued). -/
theorem C8_taint_terminates (fs : ProfMap) :
    (propLoop fs (fuelBound fs) (seedState fs)).2 = [] ∧
      ∀ j : Nat, propLoop fs (fuelBound fs + j) (seedState fs) =
        propLoop fs (fuelBound fs) (seedState fs) :=
  ⟨whenTaint_drained fs, whenTaint_stable fs⟩

/-- C9: the taint set is order independent: permuting the registration
order of the functions (with distinct identities), which also permutes
the seeding and worklist iteration order, yields the same final set. -/
theorem C9_taint_order_independent (fs1 fs2 : ProfMap) (hp : fs1.Perm fs2)
    (hnd : (fs1.map Prod.fst).Nodup) : whenTaint fs1 = whenTaint fs2 :=
  whenTaint_perm hp hnd

/-- Witness for C9 at a concrete two-function profile map and a
transposition of it. -/
theorem C9_witness :
    whenTaint [((0 : FuncId), (⟨[1], [], 1, 0⟩ : ProfileFunc)), (1, ⟨[], [], 0, 0⟩)] =
      whenTaint [(1, ⟨[], [], 0, 0⟩), (0, ⟨[1], [], 1, 0⟩)] :=
  C9_taint_order_independent _ _ (by decide) (by decide)

/-- C2, counterexample: with activation requested, no native hook and no
generation requested anywhere (no such flag exists), `analyze_scripts`
still emits generated code and reduces nothing, although one function is
eligible for the reduction pipeline. -/
theorem C2_counterexample :
    (analyze_scripts exGen).generated = true ∧
    (analyze_scripts exGen).mode = Mode.generation ∧
    (analyze_scripts exGen).reduced = [] ∧
    eligibleFuncs exGen = [0] := by
  refine ⟨by decide, by decide, by decide, by decide⟩

/-- C2, amended: when activation is requested and no native hook is
installed, the substitution mode is skipped but the generation mode
always runs (`CPPCompile`/`CompileTo` followed by an unconditional
return), so the reduction loop after it is unreachable: no function goes
through the reduction pipeline, and globals and function records are left
untouched. -/
theorem C2_generation_always (inp : AnalyzeInput)
    (hact : (resolvedOpts inp).activate = true) (hhook : inp.hook = false) :
    (analyze_scripts inp).mode = Mode.generation ∧
    (analyze_scripts inp).generated = true ∧
    (analyze_scripts inp).reduced = [] ∧
    (analyze_scripts inp).globals = inp.globals ∧
    (analyze_scripts inp).funcs = inp.funcs := by
  rw [analyze_generation hact hhook]
  exact ⟨rfl, rfl, rfl, rfl, rfl⟩

/-- Witness for C2 at the concrete generation-mode input. -/
theorem C2_witness :
    (resolvedOpts exGen).activate = true ∧
      (analyze_scripts exGen).mode = Mode.generation :=
  ⟨by decide, (C2_generation_always exGen (by decide) rfl).1⟩

/-- C5: a positive global error counter at entry makes `optimize_func`
return before doing anything: the function record is returned exactly as
registered and no action is taken. -/
theorem C5_upstream_error_short_circuit (ctx : OptimizeCtx) (rc : Reducer)
    (opts : AnalyOpt) (f : FuncState) (h : ctx.errors0 > 0) :
    optimize_func ctx rc opts f = (f, []) := by
  unfold optimize_func
  rw [if_pos h]

/-- Witness for C5 with a concrete error counter of 3. -/
theorem C5_witness : optimize_func exCtxErr exRc exOpts exFunc = (exFunc, []) :=
  C5_upstream_error_short_circuit exCtxErr exRc exOpts exFunc (by decide)

/-- C10: when the global error counter turns positive during `Reduce`
itself, `optimize_func` returns without replacing the body, without
re-profiling, decorating or resizing the frame: the function record is
exactly the one passed in. -/
theorem C10_reduce_error_no_mutation (ctx : OptimizeCtx) (rc : Reducer)
    (opts : AnalyOpt) (f : FuncState)
    (h0 : ctx.errors0 = 0) (hact : opts.activate = true)
    (hof : onlyMismatch opts.only_func f.name = false)
    (hw : f.pf.numWhenStmts = 0) (hl : f.pf.numLambdas = 0)
    (herr : ctx.errorsAfterReduce > 0) :
    (optimize_func ctx rc opts f).1 = f ∧
    OptEvent.replacedBody f.body (rc.reduce f.body) ∉ (optimize_func ctx rc opts f).2 ∧
    OptEvent.reprofiled ∉ (optimize_func ctx rc opts f).2 ∧
    OptEvent.decorated ∉ (optimize_func ctx rc opts f).2 ∧
    (∀ m, OptEvent.setFrameSize m ∉ (optimize_func ctx rc opts f).2) := by
  have hred : optimize_func ctx rc opts f =
      (f, if opts.only_func.isSome then [OptEvent.printOriginal f.body] else []) := by
    simp [optimize_func, h0, hact, hof, hw, hl, herr]
  rw [hred]
  by_cases hs : opts.only_func.isSome <;> simp [hs]

/-- Witness for C10 with the error counter becoming 2 inside `Reduce`. -/
theorem C10_witness : (optimize_func exCtxMid exRc exOpts exFunc).1 = exFunc :=
  (C10_reduce_error_no_mutation exCtxMid exRc exOpts exFunc rfl rfl rfl rfl rfl
    (by decide)).1

/-- C3: a reduced body failing the normal-form predicate is reported
(function name plus the recorded offending subtree when one was
identified) and the pipeline continues: the non-conforming reduced body
still replaces the original, is re-profiled and decorated, and the check
never aborts processing. -/
theorem C3_inconsistency_reported_not_fatal (ctx : OptimizeCtx) (rc : Reducer)
    (opts : AnalyOpt) (f : FuncState)
    (h0 : ctx.errors0 = 0) (hact : opts.activate = true)
    (hof : onlyMismatch opts.only_func f.name = false)
    (hw : f.pf.numWhenStmts = 0) (hl : f.pf.numLambdas = 0)
    (herr : ctx.errorsAfterReduce = 0)
    (hfail : ctx.isReduced (rc.reduce f.body) = false) :
    OptEvent.inconsistency f.name ctx.nonReducedPerp ∈ (optimize_func ctx rc opts f).2 ∧
    (optimize_func ctx rc opts f).1.body = rc.reduce f.body ∧
    (optimize_func ctx rc opts f).1.pf = ctx.reprofile (rc.reduce f.body) ∧
    OptEvent.replacedBody f.body (rc.reduce f.body) ∈ (optimize_func ctx rc opts f).2 ∧
    OptEvent.reprofiled ∈ (optimize_func ctx rc opts f).2 ∧
    OptEvent.decorated ∈ (optimize_func ctx rc opts f).2 := by
  refine ⟨?_, ?_, ?_, ?_, ?_, ?_⟩ <;>
    simp [optimize_func, h0, hact, hof, hw, hl, herr, hfail]

/-- Witness for C3 at concrete externals whose normal-form check fails
with a recorded offending subtree. -/
theorem C3_witness :
    OptEvent.inconsistency "f" (some "bad subtree") ∈
      (optimize_func exCtx exRc exOpts exFunc).2 ∧
    (optimize_func exCtx exRc exOpts exFunc).1.body = 110 := by
  have h := C3_inconsistency_reported_not_fatal exCtx exRc exOpts exFunc rfl rfl rfl rfl
    rfl rfl rfl
  exact ⟨h.1, h.2.1⟩

/-- C4: `optimize_func` never decreases the frame size, and whenever the
pipeline completes, the new frame size is
`scope_length + temp_count + new_local_count` exactly when that value
exceeds the prior size and is otherwise left unchanged. -/
theorem C4_frame_size_monotone (ctx : OptimizeCtx) (rc : Reducer)
    (opts : AnalyOpt) (f : FuncState) :
    f.frameSize ≤ (optimize_func ctx rc opts f).1.frameSize ∧
    (ctx.errors0 = 0 → opts.activate = true →
      onlyMismatch opts.only_func f.name = false →
      f.pf.numWhenStmts = 0 → f.pf.numLambdas = 0 → ctx.errorsAfterReduce = 0 →
      (optimize_func ctx rc opts f).1.frameSize =
        if ctx.scopeLen + rc.numTemps + rc.numNewLocals > f.frameSize
        then ctx.scopeLen + rc.numTemps + rc.numNewLocals
        else f.frameSize) := by
  constructor
  · unfold optimize_func
    repeat' split
    all_goals simp_all
    all_goals split <;> omega
  · intro h0 hact hof hw hl herr
    simp [optimize_func, h0, hact, hof, hw, hl, herr]

/-- Witness for C4: the recomputed frame size 4 + 1 + 1 exceeds the prior
size 3 and is stored. -/
theorem C4_witness :
    exFunc.frameSize ≤ (optimize_func exCtx exRc exOpts exFunc).1.frameSize ∧
    (optimize_func exCtx exRc exOpts exFunc).1.frameSize =
      (if 4 + 1 + 1 > 3 then 4 + 1 + 1 else 3) :=
  ⟨(C4_frame_size_monotone exCtx exRc exOpts exFunc).1,
   (C4_frame_size_monotone exCtx exRc exOpts exFunc).2 rfl rfl rfl rfl rfl rfl⟩

/-- C7: configuration resolution implies activation exactly as stated: a
set only-function filter implies activation, a positive usage-issues
value implies activation, and when the resolved usage-issues value is 0
that option contributes nothing — activation then holds exactly when it
was already requested, the environment requested it, or the only-function
filter is set. -/
theorem C7_config_resolution (env : EnvConfig) (o : AnalyOpt) :
    ((resolve_config env o).only_func.isSome = true →
      (resolve_config env o).activate = true) ∧
    ((resolve_config env o).usage_issues > 0 →
      (resolve_config env o).activate = true) ∧
    ((resolve_config env o).usage_issues = 0 →
      (resolve_config env o).activate =
        (o.activate || env.xform || (resolve_config env o).only_func.isSome)) := by
  rcases henv : env.usage with _ | u <;>
    rcases ho : o.only_func with _ | s <;>
      rcases he : env.only with _ | t <;>
        simp [resolve_config, henv, ho, he] <;>
          split_ifs <;> simp_all <;> (intro hcon; omega)

/-- Witness for C7: a present ZEEK_USAGE_ISSUES forces activation even
with everything else off. -/
theorem C7_witness :
    (resolve_config ⟨false, false, false, some 1, none⟩
      ⟨false, none, 0, false, false, false⟩).activate = true :=
  (C7_config_resolution ⟨false, false, false, some 1, none⟩
    ⟨false, none, 0, false, false, false⟩).2.1 (by decide)

/-- C6: in native-substitution mode (hook installed, analysis active),
every registered function found by name in the compiled registry has its
global identifier rebound to the native implementation, a function whose
name is missing from the registry silently keeps its binding, the
function records (and so the interpreted bodies) are untouched, and no
function undergoes the reduction pipeline. -/
theorem C6_native_substitution (inp : AnalyzeInput) (n : String)
    (hhook : inp.hook = true) (hact : (resolvedOpts inp).activate = true) :
    (analyze_scripts inp).mode = Mode.substitution ∧
    (analyze_scripts inp).reduced = [] ∧
    (analyze_scripts inp).funcs = inp.funcs ∧
    (alookup n inp.compiled = none →
      alookup n (analyze_scripts inp).globals = alookup n inp.globals) ∧
    (∀ impl v, alookup n inp.compiled = some impl →
      (∃ f ∈ inp.funcs, f.name = n) → alookup n inp.globals = some v →
      alookup n (analyze_scripts inp).globals = some (Val.native impl)) := by
  rw [analyze_substitution hact hhook]
  refine ⟨rfl, rfl, rfl, ?_, ?_⟩
  · intro hn
    exact substitute_notfound hn inp.funcs inp.globals
  · intro impl v hc hex hg
    exact substitute_found hc inp.funcs inp.globals (by rw [hg]; rfl) hex

/-- Witness for C6: "foo" is rebound to the native implementation while
"bar", absent from the registry, keeps its interpreted binding. -/
theorem C6_witness :
    alookup "foo" (analyze_scripts exSub).globals = some (Val.native 7) ∧
    alookup "bar" (analyze_scripts exSub).globals = alookup "bar" exSub.globals :=
  ⟨(C6_native_substitution exSub "foo" rfl (by decide)).2.2.2.2 7 (Val.interp 0)
      (by decide) (by decide) (by decide),
   (C6_native_substitution exSub "bar" rfl (by decide)).2.2.2.1 (by decide)⟩

end ScriptOpt
